import Mathlib

/-!
# CLImage filename-extension subsystem: a shallow embedding

This development embeds the filename-extension validation and renaming
logic of `src/Image/Image.cpp` (class `Image`) and proves properties of
it.  Filenames (`std::string`) are modelled as `List Char`; `at()`
accesses that may fault (`std::out_of_range`) are modelled with
`Except CppExc`.  Integer quantities that the source stores in `int`
stay in `Int`/`Nat`: none of the scans below ever exercises machine
overflow (indices are bounded by the string length).
-/

namespace CLImage

/-- The C++ exceptions that the embedded code can raise.
`outOfRange` models `std::out_of_range` thrown by `std::string::at`. -/
inductive CppExc where
  | outOfRange
deriving DecidableEq, Repr

instance {ε : Type u} {α : Type v} [DecidableEq ε] [DecidableEq α] :
    DecidableEq (Except ε α) := fun a b =>
  match a, b with
  | .ok x, .ok y =>
    if h : x = y then isTrue (by rw [h]) else isFalse (by intro hc; cases hc; exact h rfl)
  | .error x, .error y =>
    if h : x = y then isTrue (by rw [h]) else isFalse (by intro hc; cases hc; exact h rfl)
  | .ok _, .error _ => isFalse (by intro hc; cases hc)
  | .error _, .ok _ => isFalse (by intro hc; cases hc)

/-- `struct FormatTrip` from `Image.h`: a valid extension together with
the OpenCV encoder parameter code and the quality value. -/
structure FormatTrip where
  ext : List Char
  format : Nat
  quality : Nat
deriving DecidableEq, Repr

/-- OpenCV 2.x constant `CV_IMWRITE_JPEG_QUALITY` (value from the OpenCV
headers; the claims only use it as an opaque code). -/
def CV_IMWRITE_JPEG_QUALITY : Nat := 1

/-- OpenCV 2.x constant `CV_IMWRITE_PNG_COMPRESSION`. -/
def CV_IMWRITE_PNG_COMPRESSION : Nat := 16

/-- OpenCV 2.x constant `CV_IMWRITE_PXM_BINARY`. -/
def CV_IMWRITE_PXM_BINARY : Nat := 32

/-- `EXTENSION_COUNT` from `Image.cpp` line 22. -/
def EXTENSION_COUNT : Nat := 6

/-- `VALID_EXTENSIONS` from `Image.cpp` lines 25-35. -/
def VALID_EXTENSIONS : List FormatTrip :=
  [ ⟨".png".data,  CV_IMWRITE_PNG_COMPRESSION, 9⟩,
    ⟨".jpg".data,  CV_IMWRITE_JPEG_QUALITY, 100⟩,
    ⟨".jpeg".data, CV_IMWRITE_JPEG_QUALITY, 100⟩,
    ⟨".pbm".data,  CV_IMWRITE_PXM_BINARY, 1⟩,
    ⟨".pgm".data,  CV_IMWRITE_PXM_BINARY, 1⟩,
    ⟨".ppm".data,  CV_IMWRITE_PXM_BINARY, 1⟩ ]

/-- The backward dot scan of `hasValidExtension` (`Image.cpp` line 500):
`while(FILENAME.at(ch) != '.') --ch;` starting at `ch`.  The loop has no
lower bound, so on a dot-free string `ch` reaches `-1` and
`FILENAME.at(-1)` throws `std::out_of_range`, modelled by `none`.
(The start index is `length - 1`, so the scan never reads past the end.) -/
def findLastDotNoGuard (s : List Char) : Nat → Option Nat
  | 0 => if s[0]? = some '.' then some 0 else none
  | ch+1 => if s[ch+1]? = some '.' then some (ch+1) else findLastDotNoGuard s ch

/-- The guarded backward dot scan used by `removeExtension`
(`Image.cpp` line 605) and `generateFilename` (line 681):
`while(ch > 0 && s.at(ch) != '.') --ch;` starting at `ch`;
returns the final value of `ch`. -/
def findLastDotGuarded (s : List Char) : Nat → Nat
  | 0 => 0
  | ch+1 => if s[ch+1]? = some '.' then ch+1 else findLastDotGuarded s ch

/-- The linear registry search of `hasValidExtension` (`Image.cpp`
lines 510-518): walk the `VALID_EXTENSIONS` array from index `idx`,
return the index of the first entry whose `ext` equals `ext`, else `-1`. -/
def extSearch (ext : List Char) : Nat → List FormatTrip → Int
  | _, [] => -1
  | idx, t :: ts => if ext = t.ext then (idx : Int) else extSearch ext (idx+1) ts

/-- `Image::hasValidExtension` (`Image.cpp` lines 489-522), the
operation the design document calls `validateExtension`.
Returns `-3` (empty), `-2` (dot at position 0 only), `-1` (unsupported
extension) or the registry index; faults with `std::out_of_range` when
the unguarded dot scan runs off the front of a dot-free filename.
`substr(ch, length-1)` is modelled verbatim as `take (length-1) ∘ drop ch`. -/
def hasValidExtension (FILENAME : List Char) : Except CppExc Int :=
  if FILENAME = [] then .ok (-3)
  else
    match findLastDotNoGuard FILENAME (FILENAME.length - 1) with
    | none => .error .outOfRange
    | some ch =>
      if ch = 0 then .ok (-2)
      else
        .ok (extSearch ((FILENAME.drop ch).take (FILENAME.length - 1)) 0 VALID_EXTENSIONS)

/-- `Image::removeExtension` (`Image.cpp` lines 594-615), the operation
the design document calls `stripExtension`.  Returns the success flag
together with the (possibly modified) filename;
`erase(ch, s_len - ch)` is modelled as `take ch`. -/
def removeExtension (bad_filename : List Char) : Bool × List Char :=
  if bad_filename = [] then (false, bad_filename)
  else
    let ch := findLastDotGuarded bad_filename (bad_filename.length - 1)
    if ch = 0 then (false, bad_filename)
    else (true, bad_filename.take ch)

/-- `Image::addExtension` (`Image.cpp` lines 631-645).  The `initialized`
flag models `this->initialized()` (whether image data is loaded). -/
def addExtension (initialized : Bool) (incomplete_filename : List Char) :
    Bool × List Char :=
  if initialized = false then (false, incomplete_filename)
  else (true, (removeExtension incomplete_filename).2 ++ ".png".data)

/-- The extension-normalization step of `Image::saveImage`
(`Image.cpp` lines 540-553), the operation the design document calls
`ensureExtension`: validate the extension; when invalid, strip it and
call `addExtension`.  Result `none` models `saveImage` returning `false`
from `if(!addExtension(filename)) return false;`. -/
def ensureExtension (initialized : Bool) (filename : List Char) :
    Except CppExc (Option (List Char)) :=
  match hasValidExtension filename with
  | .error e => .error e
  | .ok ext_idx =>
    if ext_idx < 0 ∨ (EXTENSION_COUNT : Int) ≤ ext_idx then
      match addExtension initialized (removeExtension filename).2 with
      | (false, _) => .ok none
      | (true, f) => .ok (some f)
    else .ok (some filename)

/-- Observable outcome of `Image::saveImage`:
`fail` = returns `false` before reaching `cv::imwrite`;
`crash` = an exception escapes (from `hasValidExtension`);
`oobRead idx` = the statement `VALID_EXTENSIONS[ext_idx]` reads the
registry out of bounds (undefined behavior in the source);
`write f fmt q` = `cv::imwrite(f, *super, {fmt, q})` is invoked. -/
inductive SaveOutcome where
  | fail
  | crash (e : CppExc)
  | oobRead (idx : Int)
  | write (filename : List Char) (fmt : Nat) (quality : Nat)
deriving DecidableEq, Repr

/-- `Image::saveImage` (`Image.cpp` lines 534-581) up to the point where
the encoder parameters are handed to `cv::imwrite`.  Note that after the
normalization branch the source keeps using the stale `ext_idx` computed
from the ORIGINAL filename when it indexes `VALID_EXTENSIONS`. -/
def saveImage (initialized : Bool) (filename0 : List Char) : SaveOutcome :=
  if initialized = false ∨ filename0 = [] then .fail
  else
    match hasValidExtension filename0 with
    | .error e => .crash e
    | .ok ext_idx =>
      match (if ext_idx < 0 ∨ (EXTENSION_COUNT : Int) ≤ ext_idx
             then addExtension initialized (removeExtension filename0).2
             else (true, filename0)) with
      | (false, _) => .fail
      | (true, filename) =>
        if 0 ≤ ext_idx ∧ ext_idx < (EXTENSION_COUNT : Int) then
          match VALID_EXTENSIONS[ext_idx.toNat]? with
          | some t => .write filename t.format t.quality
          | none => .oobRead ext_idx
        else .oobRead ext_idx

/-- The digit-collecting loop of `Image::generateFilename`
(`Image.cpp` lines 696-703):
`while(mod_ch >= 0 && isdigit(seed.at(mod_ch))) { mod.insert(0,1,seed.at(mod_ch)); --mod_ch; }`.
Returns the final `mod_ch` (which may be `-1`) and the collected digits.
(The start index is below the last dot, hence in range.) -/
def collectDigits (s : List Char) : Nat → List Char → Int × List Char
  | 0, mod =>
    match s[0]? with
    | some c => if c.isDigit then (-1, c :: mod) else (0, mod)
    | none => (0, mod)
  | ch+1, mod =>
    match s[ch+1]? with
    | some c => if c.isDigit then collectDigits s ch (c :: mod)
                else ((ch+1 : Nat), mod)
    | none => ((ch+1 : Nat), mod)

/-- `std::stoi` as applied by `generateFilename`: the argument is always
a non-empty all-digit string, so this is plain decimal parsing.
(Per the design document, numeric overflow of the increment is out of
scope, so the value is kept exact in `Nat`.) -/
def stdStoi (s : List Char) : Nat :=
  s.foldl (fun a c => 10 * a + (c.toNat - '0'.toNat)) 0

/-- Fuel-driven core of `std::to_string` for non-negative values:
decimal digits of `n`, most significant first.  `fuel > n` suffices. -/
def stdToStringAux : Nat → Nat → List Char
  | 0, _ => []
  | fuel+1, n =>
    if n < 10 then [Nat.digitChar n]
    else stdToStringAux fuel (n / 10) ++ [Nat.digitChar (n % 10)]

/-- `std::to_string` on a non-negative int, as used at `Image.cpp` line 709. -/
def stdToString (n : Nat) : List Char := stdToStringAux (n+1) n

/-- Body of `Image::generateFilename` after the extension scan
(`Image.cpp` lines 685-730), with `ext_ch` the position found by the
guarded dot scan.
`seed.insert(ext_ch, "_1")` is `take ext_ch ++ "_1" ++ drop ext_ch`;
`seed.replace(mod_ch, ext_ch - mod_ch, mod)` is
`take mod_ch ++ mod ++ drop ext_ch`.  The two `.error` branches model the
`std::out_of_range` of `seed.at(-1)`; both are unreachable because the
seed is known to carry a valid extension (dot at a position `> 0`). -/
def generateFilenameCore (seed : List Char) (ext_ch : Nat) :
    Except CppExc (List Char) :=
  if ext_ch = 0 then .error .outOfRange
  else
    match seed[ext_ch - 1]? with
    | none => .error .outOfRange
    | some c0 =>
      if c0.isDigit then
        match collectDigits seed (ext_ch - 1) [] with
        | (mod_ch, mod) =>
          if 0 < mod_ch ∧ seed[mod_ch.toNat]? = some '_' then
            .ok (seed.take mod_ch.toNat ++
                  ('_' :: stdToString (stdStoi mod + 1)) ++
                  seed.drop ext_ch)
          else .ok seed
      else .ok (seed.take ext_ch ++ ('_' :: '1' :: []) ++ seed.drop ext_ch)

/-- `Image::generateFilename` (`Image.cpp` lines 661-731), the operation
the design document calls `generateDerivedFilename`: validity check of
the seed, guarded dot scan, then `generateFilenameCore`. -/
def generateFilename (seed : List Char) : Except CppExc (List Char) :=
  if seed = [] then .ok []
  else
    match hasValidExtension seed with
    | .error e => .error e
    | .ok v =>
      if v < 0 then .ok []
      else generateFilenameCore seed (findLastDotGuarded seed (seed.length - 1))

/-! ## Scan lemmas

The backward loops of the source are characterized by where the last
`'.'` of the filename sits.  Throughout, `q` is the dot position and `j`
the number of positions scanned above it. -/

/-- The unguarded dot scan, started anywhere above a dot position `q`
with no dots in between, stops at `q`. -/
theorem findLastDotNoGuard_eq_some (s : List Char) (q : Nat) (hq : s[q]? = some '.')
    (j : Nat) (h : ∀ k, q < k → k ≤ q + j → s[k]? ≠ some '.') :
    findLastDotNoGuard s (q + j) = some q := by
  induction j with
  | zero =>
    cases q with
    | zero => simp [findLastDotNoGuard, hq]
    | succ q' => simp [findLastDotNoGuard, hq]
  | succ j ih =>
    have hne : s[q + j + 1]? ≠ some '.' := h _ (by omega) (by omega)
    show findLastDotNoGuard s (q + j + 1) = some q
    simp only [findLastDotNoGuard]
    rw [if_neg hne]
    exact ih (fun k h1 h2 => h k h1 (by omega))

/-- On a string with no dot at any position `≤ j`, the unguarded scan
started at `j` faults (models `FILENAME.at(-1)` throwing). -/
theorem findLastDotNoGuard_eq_none (s : List Char) (j : Nat)
    (h : ∀ k, k ≤ j → s[k]? ≠ some '.') :
    findLastDotNoGuard s j = none := by
  induction j with
  | zero =>
    simp only [findLastDotNoGuard]
    rw [if_neg (h 0 (Nat.le_refl 0))]
  | succ j ih =>
    simp only [findLastDotNoGuard]
    rw [if_neg (h (j+1) (Nat.le_refl _))]
    exact ih (fun k hk => h k (by omega))

/-- Inversion of the unguarded scan: a successful result is a dot
position with no dots between it and the start index. -/
theorem findLastDotNoGuard_some_inv (s : List Char) :
    ∀ ch q, findLastDotNoGuard s ch = some q →
      q ≤ ch ∧ s[q]? = some '.' ∧ ∀ k, q < k → k ≤ ch → s[k]? ≠ some '.' := by
  intro ch
  induction ch with
  | zero =>
    intro q h
    by_cases hd : s[0]? = some '.'
    · simp only [findLastDotNoGuard, if_pos hd] at h
      cases h
      exact ⟨Nat.le_refl _, hd, fun k h1 h2 => by omega⟩
    · simp only [findLastDotNoGuard, if_neg hd] at h
      cases h
  | succ ch ih =>
    intro q h
    by_cases hd : s[ch+1]? = some '.'
    · simp only [findLastDotNoGuard, if_pos hd] at h
      cases h
      exact ⟨Nat.le_refl _, hd, fun k h1 h2 => by omega⟩
    · simp only [findLastDotNoGuard, if_neg hd] at h
      obtain ⟨h1, h2, h3⟩ := ih q h
      refine ⟨by omega, h2, fun k hk1 hk2 => ?_⟩
      rcases Nat.lt_or_ge k (ch+1) with hk | hk
      · exact h3 k hk1 (by omega)
      · have : k = ch + 1 := by omega
        rw [this]; exact hd

/-- The guarded dot scan, started anywhere above a dot position `q`
with no dots in between, stops at `q`. -/
theorem findLastDotGuarded_eq (s : List Char) (q : Nat) (hq : s[q]? = some '.')
    (j : Nat) (h : ∀ k, q < k → k ≤ q + j → s[k]? ≠ some '.') :
    findLastDotGuarded s (q + j) = q := by
  induction j with
  | zero =>
    cases q with
    | zero => simp [findLastDotGuarded]
    | succ q' => simp [findLastDotGuarded, hq]
  | succ j ih =>
    have hne : s[q + j + 1]? ≠ some '.' := h _ (by omega) (by omega)
    show findLastDotGuarded s (q + j + 1) = q
    simp only [findLastDotGuarded]
    rw [if_neg hne]
    exact ih (fun k h1 h2 => h k h1 (by omega))

/-- With no dot strictly after position 0 up to the start index, the
guarded scan runs down to 0. -/
theorem findLastDotGuarded_eq_zero (s : List Char) (j : Nat)
    (h : ∀ k, 1 ≤ k → k ≤ j → s[k]? ≠ some '.') :
    findLastDotGuarded s j = 0 := by
  induction j with
  | zero => rfl
  | succ j ih =>
    simp only [findLastDotGuarded]
    rw [if_neg (h (j+1) (by omega) (Nat.le_refl _))]
    exact ih (fun k hk1 hk2 => h k hk1 (by omega))

/-- Dots strictly above position `a.length` in `a ++ '.' :: r` would be
dots of `r`. -/
theorem no_dot_above (a r : List Char) (hr : '.' ∉ r) :
    ∀ k, a.length < k → k ≤ a.length + r.length →
      (a ++ '.' :: r)[k]? ≠ some '.' := by
  intro k h1 h2 hc
  rw [List.getElem?_append_right (by omega)] at hc
  obtain ⟨m, hm⟩ : ∃ m, k - a.length = m + 1 := ⟨k - a.length - 1, by omega⟩
  rw [hm] at hc
  simp only [List.getElem?_cons_succ] at hc
  exact hr (List.mem_iff_getElem?.mpr ⟨m, hc⟩)

/-- The dot of `a ++ '.' :: r` sits at position `a.length`. -/
theorem dot_at_split (a r : List Char) : (a ++ '.' :: r)[a.length]? = some '.' := by
  rw [List.getElem?_append_right (Nat.le_refl _)]
  simp

/-- Unguarded scan on `a ++ '.' :: r` (with `r` dot-free), started at the
last index, finds the dot at `a.length`. -/
theorem findLastDotNoGuard_split (a r : List Char) (hr : '.' ∉ r) :
    findLastDotNoGuard (a ++ '.' :: r) (a.length + r.length) = some a.length :=
  findLastDotNoGuard_eq_some _ _ (dot_at_split a r) _ (no_dot_above a r hr)

/-- Guarded scan on `a ++ '.' :: r` (with `r` dot-free), started at the
last index, finds the dot at `a.length`. -/
theorem findLastDotGuarded_split (a r : List Char) (hr : '.' ∉ r) :
    findLastDotGuarded (a ++ '.' :: r) (a.length + r.length) = a.length :=
  findLastDotGuarded_eq _ _ (dot_at_split a r) _ (no_dot_above a r hr)

/-- The digit loop consumes an all-digit prefix down through position 0
and leaves `mod_ch = -1` (the degenerate, purely-numeric-stem shape). -/
theorem collectDigits_all (d : List Char) (hd : d ≠ [])
    (hdig : ∀ c ∈ d, c.isDigit) :
    ∀ (v mod : List Char),
      collectDigits (d ++ v) (d.length - 1) mod = (-1, d ++ mod) := by
  induction d using List.reverseRecOn with
  | nil => cases hd rfl
  | append_singleton d' c ih =>
    intro v mod
    have hc : c.isDigit := hdig c (by simp)
    have hget : ((d' ++ [c]) ++ v)[d'.length]? = some c := by
      rw [List.append_assoc]
      rw [List.getElem?_append_right (Nat.le_refl _)]
      simp
    by_cases hd' : d' = []
    · subst hd'
      simp only [List.nil_append, List.length_cons, List.length_nil] at hget ⊢
      simp only [collectDigits, hget, hc, if_true]
      rfl
    · obtain ⟨m, hm⟩ : ∃ m, d'.length = m + 1 := by
        cases d' with
        | nil => exact absurd rfl hd'
        | cons x xs => exact ⟨xs.length, by simp⟩
      have hlen : (d' ++ [c]).length - 1 = m + 1 := by simp [hm]
      rw [hlen]
      simp only [collectDigits]
      have hidx : m + 1 = d'.length := by omega
      rw [hidx, hget]
      simp only [hc, if_true]
      rw [List.append_assoc]
      have hm2 : m = d'.length - 1 := by omega
      rw [hm2]
      rw [ih hd' (fun x hx => hdig x (by simp [hx])) ([c] ++ v) (c :: mod)]
      simp

/-- The digit loop run over digit run `d` stops at the first non-digit
character `c` below it, returning its position `u.length` and the
collected digits. -/
theorem collectDigits_stop (u : List Char) (c : Char) (hnc : ¬ c.isDigit) :
    ∀ (d : List Char), (∀ x ∈ d, x.isDigit) →
      ∀ (v mod : List Char),
        collectDigits ((u ++ [c]) ++ (d ++ v)) (u.length + d.length) mod
          = ((u.length : Int), d ++ mod) := by
  intro d
  induction d using List.reverseRecOn with
  | nil =>
    intro _ v mod
    have hget : ((u ++ [c]) ++ ([] ++ v))[u.length]? = some c := by
      rw [List.getElem?_append_left (by simp)]
      simp
    cases hu : u.length with
    | zero =>
      simp only [hu, Nat.add_zero] at hget ⊢
      simp only [List.length_nil, Nat.add_zero, hu]
      simp only [collectDigits, hget, hnc, if_false]
      rfl
    | succ m =>
      simp only [List.length_nil, Nat.add_zero, hu]
      simp only [collectDigits]
      rw [← hu, hget]
      simp [hnc]
  | append_singleton d' b ih =>
    intro hdig v mod
    have hb : b.isDigit := hdig b (by simp)
    have hget : ((u ++ [c]) ++ ((d' ++ [b]) ++ v))[u.length + d'.length + 1]? = some b := by
      have : (u ++ [c]) ++ ((d' ++ [b]) ++ v) = ((u ++ [c]) ++ d') ++ ([b] ++ v) := by
        simp [List.append_assoc]
      rw [this]
      have hlen : ((u ++ [c]) ++ d').length = u.length + d'.length + 1 := by
        simp; omega
      rw [← hlen, List.getElem?_append_right (Nat.le_refl _)]
      simp
    have hidx : u.length + (d' ++ [b]).length = (u.length + d'.length) + 1 := by
      simp only [List.length_append, List.length_cons, List.length_nil]
      omega
    rw [hidx]
    simp only [collectDigits]
    rw [hget]
    simp only [hb, if_true]
    have hassoc : (d' ++ [b]) ++ v = d' ++ ([b] ++ v) := by simp
    rw [hassoc]
    rw [ih (fun x hx => hdig x (by simp [hx])) ([b] ++ v) (b :: mod)]
    simp

/-! ## Registry and `hasValidExtension` lemmas -/

/-- The linear registry search yields `-1` or an index in
`[idx, idx + ts.length)`. -/
theorem extSearch_bound (ext : List Char) :
    ∀ (ts : List FormatTrip) (idx : Nat),
      extSearch ext idx ts = -1 ∨
      ((idx : Int) ≤ extSearch ext idx ts ∧
        extSearch ext idx ts < (idx : Int) + ts.length) := by
  intro ts
  induction ts with
  | nil => intro idx; exact Or.inl rfl
  | cons t ts ih =>
    intro idx
    by_cases h : ext = t.ext
    · right
      simp only [extSearch, if_pos h, List.length_cons]
      constructor
      · exact Int.le_refl _
      · omega
    · simp only [extSearch, if_neg h, List.length_cons]
      rcases ih (idx + 1) with h1 | ⟨h1, h2⟩
      · exact Or.inl h1
      · right
        constructor
        · omega
        · push_cast at h2 ⊢
          omega

/-- Every registry entry's extension is a dot followed by a dot-free
tail, and searching for it finds exactly its own index (the six
extensions are pairwise distinct). -/
theorem registry_shape (i : Nat) (t : FormatTrip)
    (ht : VALID_EXTENSIONS[i]? = some t) :
    ∃ r, t.ext = '.' :: r ∧ '.' ∉ r ∧
      extSearch ('.' :: r) 0 VALID_EXTENSIONS = (i : Int) := by
  have hi : i < 6 := by
    by_contra hge
    rw [List.getElem?_eq_none (by simp [VALID_EXTENSIONS]; omega)] at ht
    cases ht
  interval_cases i <;>
    (simp only [VALID_EXTENSIONS, List.getElem?_cons_zero,
      List.getElem?_cons_succ, Option.some.injEq] at ht) <;>
    subst ht
  · exact ⟨"png".data, by decide, by decide, by decide⟩
  · exact ⟨"jpg".data, by decide, by decide, by decide⟩
  · exact ⟨"jpeg".data, by decide, by decide, by decide⟩
  · exact ⟨"pbm".data, by decide, by decide, by decide⟩
  · exact ⟨"pgm".data, by decide, by decide, by decide⟩
  · exact ⟨"ppm".data, by decide, by decide, by decide⟩

/-- `hasValidExtension` on a filename decomposed at its last dot
(`a` nonempty, tail `r` dot-free): the result is the registry search on
the suffix `'.' :: r`. -/
theorem hasValidExtension_split (a r : List Char) (ha : a ≠ []) (hr : '.' ∉ r) :
    hasValidExtension (a ++ '.' :: r)
      = .ok (extSearch ('.' :: r) 0 VALID_EXTENSIONS) := by
  have hne : a ++ '.' :: r ≠ [] := by simp
  have hlen : (a ++ '.' :: r).length - 1 = a.length + r.length := by
    simp only [List.length_append, List.length_cons]
    omega
  have ha0 : a.length ≠ 0 := fun h => ha (List.length_eq_zero.mp h)
  have htk : ('.' :: r).length ≤ (a ++ '.' :: r).length - 1 := by
    simp only [List.length_append, List.length_cons]
    omega
  unfold hasValidExtension
  rw [if_neg hne, hlen, findLastDotNoGuard_split a r hr]
  simp only
  rw [if_neg ha0]
  rw [List.drop_left]
  rw [← hlen, List.take_of_length_le htk]

/-- Inversion: a non-negative `hasValidExtension` result exposes the
last-dot decomposition of the filename, and fixes the guarded scan used
by `removeExtension`/`generateFilename`. -/
theorem hasValidExtension_ok_inv (seed : List Char) (v : Int)
    (hv : hasValidExtension seed = .ok v) (h0 : 0 ≤ v) :
    ∃ a e', seed = a ++ '.' :: e' ∧ a ≠ [] ∧ '.' ∉ e' ∧
      v = extSearch ('.' :: e') 0 VALID_EXTENSIONS ∧
      findLastDotGuarded seed (seed.length - 1) = a.length := by
  by_cases hs : seed = []
  · rw [hs] at hv
    have hv' : (-3 : Int) = v := by simpa [hasValidExtension] using hv
    omega
  · unfold hasValidExtension at hv
    rw [if_neg hs] at hv
    cases hscan : findLastDotNoGuard seed (seed.length - 1) with
    | none => rw [hscan] at hv; cases hv
    | some ch =>
      rw [hscan] at hv
      simp only at hv
      by_cases hch : ch = 0
      · rw [if_pos hch] at hv
        simp only [Except.ok.injEq] at hv
        omega
      · rw [if_neg hch] at hv
        simp only [Except.ok.injEq] at hv
        obtain ⟨hle, hdot, habove⟩ := findLastDotNoGuard_some_inv seed _ _ hscan
        have hchlt : ch < seed.length := by
          rcases List.getElem?_eq_some.mp hdot with ⟨hlt, _⟩
          exact hlt
        refine ⟨seed.take ch, (seed.drop ch).tail, ?_, ?_, ?_, ?_, ?_⟩
        · have hdecomp : seed = seed.take ch ++ seed.drop ch :=
            (List.take_append_drop ch seed).symm
          have hdrop : seed.drop ch = '.' :: (seed.drop ch).tail := by
            have h0get : (seed.drop ch)[0]? = some '.' := by
              rw [List.getElem?_drop]; simpa using hdot
            cases hd : seed.drop ch with
            | nil => rw [hd] at h0get; cases h0get
            | cons x xs =>
              rw [hd] at h0get
              simp only [List.getElem?_cons_zero, Option.some.injEq] at h0get
              rw [h0get]; rfl
          rw [← hdrop]; exact hdecomp
        · intro h
          have := congrArg List.length h
          simp only [List.length_take, List.length_nil] at this
          omega
        · intro hmem
          obtain ⟨m, hm⟩ := List.mem_iff_getElem?.mp hmem
          have : seed[ch + 1 + m]? = some '.' := by
            have h1 : (seed.drop ch).tail = seed.drop (ch + 1) := by
              rw [List.tail_drop]
            rw [h1, List.getElem?_drop] at hm
            exact hm
          have hlt : ch + 1 + m < seed.length := by
            rcases List.getElem?_eq_some.mp this with ⟨hlt, _⟩
            exact hlt
          exact habove (ch + 1 + m) (by omega) (by omega) this
        · rw [← hv]
          congr 1
          · have hlendrop : (seed.drop ch).length ≤ seed.length - 1 := by
              simp only [List.length_drop]
              omega
            rw [List.take_of_length_le hlendrop]
            have h0get : (seed.drop ch)[0]? = some '.' := by
              rw [List.getElem?_drop]; simpa using hdot
            cases hd : seed.drop ch with
            | nil => rw [hd] at h0get; cases h0get
            | cons x xs =>
              rw [hd] at h0get
              simp only [List.getElem?_cons_zero, Option.some.injEq] at h0get
              rw [h0get]
              simp
        · have hlentake : (seed.take ch).length = ch := by
            simp only [List.length_take]
            omega
          rw [hlentake]
          have hj : seed.length - 1 = ch + (seed.length - 1 - ch) := by omega
          rw [hj]
          exact findLastDotGuarded_eq seed ch hdot _
            (fun k h1 h2 => habove k h1 (by omega))

/-! ## `removeExtension` and `stdToString` lemmas -/

/-- `removeExtension` on a filename decomposed at its last dot strips
exactly the suffix from that dot. -/
theorem removeExtension_split (a e' : List Char) (ha : a ≠ []) (hr : '.' ∉ e') :
    removeExtension (a ++ '.' :: e') = (true, a) := by
  have hne : a ++ '.' :: e' ≠ [] := by simp
  have hlen : (a ++ '.' :: e').length - 1 = a.length + e'.length := by
    simp only [List.length_append, List.length_cons]
    omega
  have ha0 : a.length ≠ 0 := fun h => ha (List.length_eq_zero.mp h)
  simp only [removeExtension, if_neg hne, hlen,
    findLastDotGuarded_split a e' hr, if_neg ha0]
  rw [List.take_left]

/-- `removeExtension` is the identity (with failure flag) on filenames
with no dot strictly after position 0. -/
theorem removeExtension_noDot (f : List Char) (h : '.' ∉ f.drop 1) :
    removeExtension f = (false, f) := by
  by_cases hnil : f = []
  · subst hnil; rfl
  · have hz : findLastDotGuarded f (f.length - 1) = 0 := by
      apply findLastDotGuarded_eq_zero
      intro k hk1 hk2 hc
      apply h
      apply List.mem_iff_getElem?.mpr
      refine ⟨k - 1, ?_⟩
      rw [List.getElem?_drop]
      rw [show 1 + (k - 1) = k by omega]
      exact hc
    simp only [removeExtension, if_neg hnil, hz]
    simp

/-- `Nat.digitChar` of a value below 10 is a decimal digit character. -/
theorem digitChar_isDigit (m : Nat) (hm : m < 10) : (Nat.digitChar m).isDigit := by
  interval_cases m <;> decide

/-- All characters produced by the `to_string` model are decimal digits. -/
theorem stdToStringAux_digits :
    ∀ fuel n c, c ∈ stdToStringAux fuel n → c.isDigit := by
  intro fuel
  induction fuel with
  | zero => intro n c hc; cases hc
  | succ fuel ih =>
    intro n c hc
    simp only [stdToStringAux] at hc
    by_cases hn : n < 10
    · rw [if_pos hn] at hc
      simp only [List.mem_singleton] at hc
      subst hc
      exact digitChar_isDigit n hn
    · rw [if_neg hn] at hc
      rcases List.mem_append.mp hc with h1 | h2
      · exact ih _ c h1
      · simp only [List.mem_singleton] at h2
        subst h2
        exact digitChar_isDigit _ (Nat.mod_lt _ (by omega))

/-- The decimal rendering of a number contains no dot. -/
theorem stdToString_no_dot (n : Nat) : '.' ∉ stdToString n := by
  intro hmem
  have h := stdToStringAux_digits (n+1) n '.' hmem
  exact absurd h (by decide)

/-! ## The claims -/

/-- C1: FALSIFIED (code bug).  The claim says `saveImage` only ever reads
the format registry at an index in `[0, 6)` — the index of the
descriptor matching the (normalized) filename.  But `saveImage` computes
`ext_idx` from the ORIGINAL filename and never recomputes it after
normalizing an invalid extension: with an initialized image and filename
`"photo.bmp"`, `hasValidExtension` returns `-1`, the filename is
normalized to `"photo.png"`, and the source then evaluates
`VALID_EXTENSIONS[-1]`, an out-of-bounds read. -/
theorem C1_saveImage_reads_registry_out_of_bounds :
    saveImage true "photo.bmp".data = SaveOutcome.oobRead (-1) := by decide

/-- C2: FALSIFIED (code bug).  The claim says every operation is total
with no uncaught exception.  `removeExtension` (stripExtension) is indeed
total, but the dot scan of `hasValidExtension` (validateExtension) has no
lower bound: on the dot-free filename `"abc"` it evaluates
`FILENAME.at(-1)`, which throws `std::out_of_range` — contradicting the
function's own documented `-2` return.  The exception propagates through
`generateFilename` (generateDerivedFilename) and the normalization step
of `saveImage` (ensureExtension). -/
theorem C2_operations_not_total :
    hasValidExtension "abc".data = .error .outOfRange ∧
    generateFilename "abc".data = .error .outOfRange ∧
    ensureExtension true "abc".data = .error .outOfRange ∧
    removeExtension "abc".data = (false, "abc".data) := by decide

/-- C5: FALSIFIED (code bug).  The claim says `validateExtension` returns
`NoExtension` (`-2`) both for non-empty dot-free filenames and for
filenames whose only dot is the first character.  The second half holds,
but for every non-empty dot-free filename the unguarded scan faults with
`std::out_of_range` instead of returning `-2` — contradicting the
function's own doc comment. -/
theorem C5_noExtension_results (f : List Char) :
    (f ≠ [] → '.' ∉ f → hasValidExtension f = .error .outOfRange) ∧
    (∀ e', f = '.' :: e' → '.' ∉ e' → hasValidExtension f = .ok (-2)) := by
  constructor
  · intro hne hdot
    unfold hasValidExtension
    rw [if_neg hne]
    rw [findLastDotNoGuard_eq_none f _
      (fun k _ hc => hdot (List.mem_iff_getElem?.mpr ⟨k, hc⟩))]
  · intro e' hf hdot
    subst hf
    have hs := findLastDotNoGuard_split [] e' hdot
    simp only [List.nil_append, List.length_nil, Nat.zero_add] at hs
    have hlen : ('.' :: e').length - 1 = e'.length := by simp
    unfold hasValidExtension
    rw [if_neg (by simp : ('.' :: e' : List Char) ≠ [])]
    rw [hlen, hs]
    simp

/-- Witness for C5 at the inputs `"abc"` (crash) and `".hidden"`. -/
theorem C5_noExtension_results_witness :
    hasValidExtension "abc".data = .error .outOfRange ∧
    hasValidExtension ('.' :: "hidden".data) = .ok (-2) :=
  ⟨(C5_noExtension_results "abc".data).1 (by decide) (by decide),
   (C5_noExtension_results ('.' :: "hidden".data)).2 "hidden".data rfl (by decide)⟩

/-- C6: counterexample.  The filename `".png"` has a suffix starting at
its last dot that exactly matches registry entry 0, yet
`validateExtension` returns `-2` (`NoExtension`), not `Valid 0`, because
the dot is at position 0. -/
theorem C6_counterexample :
    VALID_EXTENSIONS[0]? = some ⟨".png".data, CV_IMWRITE_PNG_COMPRESSION, 9⟩ ∧
    hasValidExtension ".png".data ≠ .ok 0 ∧
    hasValidExtension ".png".data = .ok (-2) := by decide

/-- C6 (amended): for every filename whose LAST dot is at a position
other than 0 and whose suffix from that dot is a registry extension
(case-sensitively), `validateExtension` returns `Valid` with that
descriptor's registry index.  Stated as: prepending any non-empty prefix
to a registry extension validates to that entry's index. -/
theorem C6_valid_extension_gets_index (a : List Char) (i : Nat) (t : FormatTrip)
    (ht : VALID_EXTENSIONS[i]? = some t) (ha : a ≠ []) :
    hasValidExtension (a ++ t.ext) = .ok (i : Int) := by
  obtain ⟨r, hext, hr, hsearch⟩ := registry_shape i t ht
  rw [hext, hasValidExtension_split a r ha hr, hsearch]

/-- Witness for C6 (amended) at `"photo" ++ ".jpeg"`, registry index 2. -/
theorem C6_valid_extension_gets_index_witness :
    hasValidExtension ("photo".data ++
        (FormatTrip.mk ".jpeg".data CV_IMWRITE_JPEG_QUALITY 100).ext)
      = .ok ((2 : Nat) : Int) :=
  C6_valid_extension_gets_index "photo".data 2 _ (by decide) (by decide)

/-- C7: CONFIRMED.  `stripExtension` removes exactly the suffix from the
last dot when that dot sits strictly after position 0, and is a failing
no-op when the filename is empty or has no dot strictly after position 0
(e.g. `".hidden"`). -/
theorem C7_stripExtension_spec (f : List Char) :
    (∀ a e', f = a ++ '.' :: e' → a ≠ [] → '.' ∉ e' →
      removeExtension f = (true, a)) ∧
    ((f = [] ∨ '.' ∉ f.drop 1) → removeExtension f = (false, f)) := by
  constructor
  · intro a e' hf ha hr
    subst hf
    exact removeExtension_split a e' ha hr
  · intro hcase
    rcases hcase with hnil | hnd
    · subst hnil; rfl
    · exact removeExtension_noDot f hnd

/-- Witness for C7 at `"archive.tar.png"` (strips to `"archive.tar"`)
and `".hidden"` (failing no-op). -/
theorem C7_stripExtension_spec_witness :
    removeExtension "archive.tar.png".data = (true, "archive.tar".data) ∧
    removeExtension ".hidden".data = (false, ".hidden".data) :=
  ⟨(C7_stripExtension_spec "archive.tar.png".data).1 "archive.tar".data
      "png".data (by decide) (by decide) (by decide),
   (C7_stripExtension_spec ".hidden".data).2 (Or.inr (by decide))⟩

/-- C8: counterexample.  The claim says `ensureExtension` strips the
existing invalid extension and appends `".png"`; on `"a.b.xyz"`
strip-then-append would give `"a.b.png"`, but the source strips TWICE
(once in `saveImage`, once more inside `addExtension`) and produces
`"a.png"`. -/
theorem C8_counterexample :
    ensureExtension true "a.b.xyz".data = .ok (some "a.png".data) ∧
    (removeExtension "a.b.xyz".data).2 ++ ".png".data = "a.b.png".data ∧
    "a.png".data ≠ "a.b.png".data := by decide

/-- C8 (amended): when `validateExtension` reports `Valid`, the filename
passes through unchanged; when the filename has an unsupported extension
(last dot strictly after position 0, suffix not in the registry), the
invalid extension is stripped and `addExtension` then strips any second
remaining extension before appending `".png"` — so `"photo.bmp"` becomes
`"photo.png"` but `"a.b.xyz"` becomes `"a.png"`.  (Extensionless
filenames instead fault inside `validateExtension`, see C2/C5.) -/
theorem C8_ensureExtension_amended (f : List Char) :
    (∀ (init : Bool) (v : Int), hasValidExtension f = .ok v → 0 ≤ v →
      ensureExtension init f = .ok (some f)) ∧
    (∀ a e', f = a ++ '.' :: e' → a ≠ [] → '.' ∉ e' →
      extSearch ('.' :: e') 0 VALID_EXTENSIONS = -1 →
      ensureExtension true f = .ok (some ((removeExtension a).2 ++ ".png".data))) := by
  constructor
  · intro init v hv h0
    obtain ⟨a, e', hf, ha, hr, hvs, _⟩ := hasValidExtension_ok_inv f v hv h0
    have hb := extSearch_bound ('.' :: e') VALID_EXTENSIONS 0
    rw [← hvs] at hb
    have hec : ((EXTENSION_COUNT : Nat) : Int) = 6 := rfl
    have hlen6 : ((VALID_EXTENSIONS.length : Nat) : Int) = 6 := rfl
    have h6 : v < (EXTENSION_COUNT : Int) := by
      rcases hb with h1 | ⟨_, h2⟩
      · omega
      · rw [hlen6] at h2
        omega
    unfold ensureExtension
    rw [hv]
    simp only
    rw [if_neg (by omega : ¬ (v < 0 ∨ (EXTENSION_COUNT : Int) ≤ v))]
  · intro a e' hf ha hr hsearch
    subst hf
    have hv : hasValidExtension (a ++ '.' :: e') = .ok (-1) := by
      rw [hasValidExtension_split a e' ha hr, hsearch]
    have hrm : removeExtension (a ++ '.' :: e') = (true, a) :=
      removeExtension_split a e' ha hr
    unfold ensureExtension
    rw [hv]
    simp only
    rw [if_pos (Or.inl (by omega : (-1 : Int) < 0))]
    rw [hrm]
    simp only [addExtension]
    simp

/-- Witness for C8 (amended): `"photo.bmp"` (unsupported extension) is
normalized via strip + strip + append to `"photo.png"`. -/
theorem C8_ensureExtension_amended_witness :
    ensureExtension true ("photo".data ++ '.' :: "bmp".data)
      = .ok (some ((removeExtension "photo".data).2 ++ ".png".data)) :=
  (C8_ensureExtension_amended ("photo".data ++ '.' :: "bmp".data)).2
    "photo".data "bmp".data rfl (by decide) (by decide) (by decide)

/-- On a seed with a registry-matching extension, `generateFilename`
reaches its body with `ext_ch` at the last-dot position. -/
theorem generateFilename_valid (a r : List Char) (ha : a ≠ []) (hr : '.' ∉ r)
    (hv : 0 ≤ extSearch ('.' :: r) 0 VALID_EXTENSIONS) :
    generateFilename (a ++ '.' :: r)
      = generateFilenameCore (a ++ '.' :: r) a.length := by
  have hne : a ++ '.' :: r ≠ [] := by simp
  have hlen : (a ++ '.' :: r).length - 1 = a.length + r.length := by
    simp only [List.length_append, List.length_cons]
    omega
  unfold generateFilename
  rw [if_neg hne, hasValidExtension_split a r ha hr]
  simp only
  rw [if_neg (by omega : ¬ extSearch ('.' :: r) 0 VALID_EXTENSIONS < 0)]
  rw [hlen, findLastDotGuarded_split a r hr]

/-- C3: CONFIRMED.  On a seed `u ++ "_" ++ d ++ ext` with `ext` a
registry extension, `u` non-empty (the `_` is not at position 0) and `d`
a non-empty digit run, `generateDerivedFilename` replaces `d` by the
decimal rendering of `stoi(d) + 1`, preserving the `_` delimiter and the
extension.  (`"photo_1.png"` ↦ `"photo_2.png"`, `"photo_9.png"` ↦
`"photo_10.png"`.) -/
theorem C3_generate_increments_suffix (u d : List Char) (i : Nat) (t : FormatTrip)
    (ht : VALID_EXTENSIONS[i]? = some t) (hu : u ≠ []) (hd : d ≠ [])
    (hdig : ∀ c ∈ d, c.isDigit) :
    generateFilename (u ++ '_' :: (d ++ t.ext))
      = .ok (u ++ '_' :: (stdToString (stdStoi d + 1) ++ t.ext)) := by
  obtain ⟨r, hext, hr, hsearch⟩ := registry_shape i t ht
  rw [hext]
  have hseed : u ++ '_' :: (d ++ '.' :: r) = (u ++ '_' :: d) ++ '.' :: r := by
    simp
  rw [hseed]
  have ha : u ++ '_' :: d ≠ [] := by simp
  have hvnn : 0 ≤ extSearch ('.' :: r) 0 VALID_EXTENSIONS := by
    rw [hsearch]; exact Int.natCast_nonneg i
  rw [generateFilename_valid _ r ha hr hvnn]
  obtain ⟨d', cd, hdc⟩ := (List.eq_nil_or_concat d).resolve_left hd
  rw [List.concat_eq_append] at hdc
  have hcd : cd.isDigit := hdig cd (by rw [hdc]; simp)
  unfold generateFilenameCore
  have hN0 : (u ++ '_' :: d).length ≠ 0 := by simp
  rw [if_neg hN0]
  have hidx : (u ++ '_' :: d).length - 1 = u.length + d.length := by
    simp only [List.length_append, List.length_cons]
    omega
  rw [hidx]
  have hc0 : ((u ++ '_' :: d) ++ '.' :: r)[u.length + d.length]? = some cd := by
    have hre : (u ++ '_' :: d) ++ '.' :: r
        = (u ++ '_' :: d') ++ ([cd] ++ '.' :: r) := by
      rw [hdc]; simp
    have hple : (u ++ '_' :: d').length = u.length + d.length := by
      rw [hdc]
      simp only [List.length_append, List.length_cons, List.length_nil]
    rw [hre, ← hple, List.getElem?_append_right (Nat.le_refl _)]
    simp
  rw [hc0]
  simp only
  rw [if_pos hcd]
  have hcollect : collectDigits ((u ++ '_' :: d) ++ '.' :: r)
      (u.length + d.length) [] = ((u.length : Int), d) := by
    have hre : (u ++ '_' :: d) ++ '.' :: r = (u ++ ['_']) ++ (d ++ '.' :: r) := by
      simp
    rw [hre, collectDigits_stop u '_' (by decide) d hdig ('.' :: r) []]
    simp
  rw [hcollect]
  simp only
  have hpos : (0 : Int) < (u.length : Int) := by
    have : 0 < u.length := List.length_pos.mpr hu
    omega
  have hund : ((u ++ '_' :: d) ++ '.' :: r)[((u.length : Int)).toNat]? = some '_' := by
    rw [Int.toNat_natCast]
    have hre : (u ++ '_' :: d) ++ '.' :: r = u ++ ('_' :: (d ++ '.' :: r)) := by
      simp
    rw [hre, List.getElem?_append_right (Nat.le_refl _)]
    simp
  rw [if_pos ⟨hpos, hund⟩]
  rw [Int.toNat_natCast]
  have htake : ((u ++ '_' :: d) ++ '.' :: r).take u.length = u := by
    have hre : (u ++ '_' :: d) ++ '.' :: r = u ++ ('_' :: (d ++ '.' :: r)) := by
      simp
    rw [hre, List.take_left]
  have hdrop : ((u ++ '_' :: d) ++ '.' :: r).drop (u ++ '_' :: d).length
      = '.' :: r := List.drop_left _ _
  rw [htake, hdrop]
  simp

/-- Witness for C3 at `"photo_1.png"` and `"photo_9.png"`. -/
theorem C3_generate_increments_suffix_witness :
    generateFilename "photo_1.png".data = .ok "photo_2.png".data ∧
    generateFilename "photo_9.png".data = .ok "photo_10.png".data := by
  constructor
  · have h := C3_generate_increments_suffix "photo".data ['1'] 0
      ⟨".png".data, CV_IMWRITE_PNG_COMPRESSION, 9⟩
      (by decide) (by decide) (by decide) (by decide)
    rw [show "photo_1.png".data = "photo".data ++ '_' :: (['1'] ++
      (FormatTrip.mk ".png".data CV_IMWRITE_PNG_COMPRESSION 9).ext) by decide]
    rw [h]
    decide
  · have h := C3_generate_increments_suffix "photo".data ['9'] 0
      ⟨".png".data, CV_IMWRITE_PNG_COMPRESSION, 9⟩
      (by decide) (by decide) (by decide) (by decide)
    rw [show "photo_9.png".data = "photo".data ++ '_' :: (['9'] ++
      (FormatTrip.mk ".png".data CV_IMWRITE_PNG_COMPRESSION 9).ext) by decide]
    rw [h]
    decide

/-- C4: CONFIRMED.  On a seed with a registry extension whose character
just before the extension boundary is not a decimal digit,
`generateDerivedFilename` inserts `"_1"` immediately before the
extension boundary (`"photo.png"` ↦ `"photo_1.png"`). -/
theorem C4_generate_inserts_first_suffix (a' : List Char) (c : Char)
    (i : Nat) (t : FormatTrip) (ht : VALID_EXTENSIONS[i]? = some t)
    (hnd : ¬ c.isDigit) :
    generateFilename ((a' ++ [c]) ++ t.ext)
      = .ok ((a' ++ [c]) ++ '_' :: '1' :: t.ext) := by
  obtain ⟨r, hext, hr, hsearch⟩ := registry_shape i t ht
  rw [hext]
  have ha : a' ++ [c] ≠ [] := by simp
  have hvnn : 0 ≤ extSearch ('.' :: r) 0 VALID_EXTENSIONS := by
    rw [hsearch]; exact Int.natCast_nonneg i
  rw [generateFilename_valid _ r ha hr hvnn]
  unfold generateFilenameCore
  have hN0 : (a' ++ [c]).length ≠ 0 := by simp
  rw [if_neg hN0]
  have hidx : (a' ++ [c]).length - 1 = a'.length := by simp
  rw [hidx]
  have hc0 : ((a' ++ [c]) ++ '.' :: r)[a'.length]? = some c := by
    rw [List.getElem?_append_left (by simp)]
    exact List.getElem?_concat_length a' c
  rw [hc0]
  simp only
  rw [if_neg hnd]
  rw [List.take_left, List.drop_left]
  simp

/-- Witness for C4 at `"photo.png"`. -/
theorem C4_generate_inserts_first_suffix_witness :
    generateFilename "photo.png".data = .ok "photo_1.png".data := by
  have h := C4_generate_inserts_first_suffix "phot".data 'o' 0
    ⟨".png".data, CV_IMWRITE_PNG_COMPRESSION, 9⟩ (by decide) (by decide)
  rw [show "photo.png".data = ("phot".data ++ ['o']) ++
    (FormatTrip.mk ".png".data CV_IMWRITE_PNG_COMPRESSION 9).ext by decide]
  rw [h]
  decide

/-- C9: CONFIRMED.  On a seed with a registry extension whose whole stem
is a non-empty digit run (purely numeric stem such as `"42.png"`),
`generateDerivedFilename` returns the seed unchanged. -/
theorem C9_generate_degenerate_unchanged (d : List Char) (i : Nat)
    (t : FormatTrip) (ht : VALID_EXTENSIONS[i]? = some t) (hd : d ≠ [])
    (hdig : ∀ c ∈ d, c.isDigit) :
    generateFilename (d ++ t.ext) = .ok (d ++ t.ext) := by
  obtain ⟨r, hext, hr, hsearch⟩ := registry_shape i t ht
  rw [hext]
  have hvnn : 0 ≤ extSearch ('.' :: r) 0 VALID_EXTENSIONS := by
    rw [hsearch]; exact Int.natCast_nonneg i
  rw [generateFilename_valid d r hd hr hvnn]
  obtain ⟨d', cd, hdc⟩ := (List.eq_nil_or_concat d).resolve_left hd
  rw [List.concat_eq_append] at hdc
  unfold generateFilenameCore
  have hN0 : d.length ≠ 0 := fun h => hd (List.length_eq_zero.mp h)
  rw [if_neg hN0]
  have hc0 : (d ++ '.' :: r)[d.length - 1]? = some cd := by
    rw [hdc]
    have hi1 : (d' ++ [cd]).length - 1 = d'.length := by simp
    rw [hi1, List.getElem?_append_left (by simp)]
    exact List.getElem?_concat_length d' cd
  rw [hc0]
  simp only
  rw [if_pos (hdig cd (by rw [hdc]; simp))]
  rw [collectDigits_all d hd hdig ('.' :: r) []]
  simp only
  rw [if_neg (by intro hcon; exact absurd hcon.1 (by decide))]

/-- Witness for C9 at `"42.png"`. -/
theorem C9_generate_degenerate_unchanged_witness :
    generateFilename "42.png".data = .ok "42.png".data := by
  have h := C9_generate_degenerate_unchanged ['4', '2'] 0
    ⟨".png".data, CV_IMWRITE_PNG_COMPRESSION, 9⟩ (by decide) (by decide) (by decide)
  rw [show "42.png".data = ['4', '2'] ++
    (FormatTrip.mk ".png".data CV_IMWRITE_PNG_COMPRESSION 9).ext by decide]
  rw [h]

/-- C10: CONFIRMED.  Whenever `generateDerivedFilename` returns a
non-empty result, only the stem before the extension boundary was
modified: the suffix from the last dot is exactly the seed's, and
`validateExtension` on the result equals `validateExtension` on the seed
(a `Valid` registry index). -/
theorem C10_extension_preserved (seed res : List Char)
    (h : generateFilename seed = .ok res) (hres : res ≠ []) :
    res.drop (findLastDotGuarded res (res.length - 1))
      = seed.drop (findLastDotGuarded seed (seed.length - 1)) ∧
    hasValidExtension res = hasValidExtension seed ∧
    ∃ v : Int, 0 ≤ v ∧ hasValidExtension seed = .ok v := by
  by_cases hs : seed = []
  · subst hs
    simp only [generateFilename, if_pos rfl, Except.ok.injEq] at h
    simp at h
    exact absurd h hres
  · cases hv : hasValidExtension seed with
    | error e =>
      unfold generateFilename at h
      rw [if_neg hs, hv] at h
      cases h
    | ok v =>
      unfold generateFilename at h
      rw [if_neg hs, hv] at h
      simp only at h
      by_cases hvneg : v < 0
      · rw [if_pos hvneg] at h
        simp only [Except.ok.injEq] at h
        exact absurd h.symm hres
      · rw [if_neg hvneg] at h
        have h0 : 0 ≤ v := by omega
        obtain ⟨a, e', hfeq, ha, hr, hvs, hguard⟩ :=
          hasValidExtension_ok_inv seed v hv h0
        rw [hguard] at h
        unfold generateFilenameCore at h
        have hN0 : a.length ≠ 0 := fun hh => ha (List.length_eq_zero.mp hh)
        rw [if_neg hN0] at h
        have hdropseed : seed.drop a.length = '.' :: e' := by
          rw [hfeq]; exact List.drop_left _ _
        have htakeseed : seed.take a.length = a := by
          rw [hfeq]; exact List.take_left _ _
        cases hc0 : seed[a.length - 1]? with
        | none => rw [hc0] at h; simp only at h; cases h
        | some c0 =>
          rw [hc0] at h
          simp only at h
          by_cases hdig : c0.isDigit
          · rw [if_pos hdig] at h
            cases hcol : collectDigits seed (a.length - 1) [] with
            | mk mod_ch mod =>
              rw [hcol] at h
              simp only at h
              by_cases hcond : 0 < mod_ch ∧ seed[mod_ch.toNat]? = some '_'
              · rw [if_pos hcond] at h
                simp only [Except.ok.injEq] at h
                subst h
                rw [hdropseed]
                have hx : seed.take mod_ch.toNat ++
                      ('_' :: stdToString (stdStoi mod + 1)) ++ ('.' :: e')
                    = (seed.take mod_ch.toNat ++
                        '_' :: stdToString (stdStoi mod + 1)) ++ ('.' :: e') := by
                  simp
                rw [hx]
                have hbne : seed.take mod_ch.toNat ++
                    '_' :: stdToString (stdStoi mod + 1) ≠ [] := by simp
                have hblen : ((seed.take mod_ch.toNat ++
                      '_' :: stdToString (stdStoi mod + 1)) ++ ('.' :: e')).length - 1
                    = (seed.take mod_ch.toNat ++
                        '_' :: stdToString (stdStoi mod + 1)).length + e'.length := by
                  simp only [List.length_append, List.length_cons]
                  omega
                refine ⟨?_, ?_, ⟨v, h0, rfl⟩⟩
                · rw [hblen, findLastDotGuarded_split _ e' hr, List.drop_left,
                    hguard, hdropseed]
                · rw [hasValidExtension_split _ e' hbne hr, ← hvs]
              · rw [if_neg hcond] at h
                simp only [Except.ok.injEq] at h
                subst h
                exact ⟨rfl, hv, ⟨v, h0, rfl⟩⟩
          · rw [if_neg hdig] at h
            simp only [Except.ok.injEq] at h
            subst h
            rw [htakeseed, hdropseed]
            have hx : a ++ ('_' :: '1' :: []) ++ ('.' :: e')
                = (a ++ '_' :: '1' :: []) ++ ('.' :: e') := by simp
            rw [hx]
            have hbne : a ++ '_' :: '1' :: [] ≠ [] := by simp
            have hblen : ((a ++ '_' :: '1' :: []) ++ ('.' :: e')).length - 1
                = (a ++ '_' :: '1' :: []).length + e'.length := by
              simp only [List.length_append, List.length_cons]
              omega
            refine ⟨?_, ?_, ⟨v, h0, rfl⟩⟩
            · rw [hblen, findLastDotGuarded_split _ e' hr, List.drop_left,
                hguard, hdropseed]
            · rw [hasValidExtension_split _ e' hbne hr, ← hvs]

/-- Witness for C10: duplicating `"photo.png"` yields `"photo_1.png"`,
whose extension and validation result match the seed's. -/
theorem C10_extension_preserved_witness :
    "photo_1.png".data.drop
        (findLastDotGuarded "photo_1.png".data ("photo_1.png".data.length - 1))
      = "photo.png".data.drop
          (findLastDotGuarded "photo.png".data ("photo.png".data.length - 1)) ∧
    hasValidExtension "photo_1.png".data = hasValidExtension "photo.png".data ∧
    ∃ v : Int, 0 ≤ v ∧ hasValidExtension "photo.png".data = .ok v :=
  C10_extension_preserved "photo.png".data "photo_1.png".data
    (by decide) (by decide)

example : "ab".data = ['a', 'b'] := rfl

example : hasValidExtension "photo.png".data = .ok 0 := by decide

example : hasValidExtension "abc".data = .error .outOfRange := by decide

example : hasValidExtension ".hidden".data = .ok (-2) := by decide

example : hasValidExtension "photo.bmp".data = .ok (-1) := by decide

example : removeExtension "archive.tar.png".data = (true, "archive.tar".data) := by decide

example : removeExtension ".hidden".data = (false, ".hidden".data) := by decide

example : ensureExtension true "photo.bmp".data = .ok (some "photo.png".data) := by decide

example : ensureExtension true "a.b.xyz".data = .ok (some "a.png".data) := by decide

example : saveImage true "photo.bmp".data = .oobRead (-1) := by decide

example : saveImage true "photo.png".data =
    .write "photo.png".data CV_IMWRITE_PNG_COMPRESSION 9 := by decide

example : generateFilename "photo.png".data = .ok "photo_1.png".data := by decide

example : generateFilename "photo_1.png".data = .ok "photo_2.png".data := by decide

example : generateFilename "photo_9.png".data = .ok "photo_10.png".data := by decide

example : generateFilename "42.png".data = .ok "42.png".data := by decide

example : generateFilename "abc".data = .error .outOfRange := by decide

example : generateFilename "photo_007.png".data = .ok "photo_8.png".data := by decide

end CLImage
